import Mathlib

/-!
# Verification of the AetherRun link checker (`scripts/link-checker.py`)

This file gives a shallow embedding of the crawl engine of the link checker:
URL parsing/filtering (`is_valid_url`), canonicalization, link extraction
(`extract_links`), the fetch boundary (`check_url`), the breadth-first crawl
loop (`crawl`), and report generation (`generate_report`).

Modelling conventions:

* Machine-level networking is an oracle (`Env`): `fetch1 url` is the outcome
  of the classification GET issued by `check_url`, and `fetch2 url` is the
  outcome of the second GET issued for link extraction (body, or a raised
  exception message).
* The regular-expression scan of the page body and the `urljoin` resolution of
  each matched attribute value are abstracted: a `Page` carries the list of
  already-resolved absolute URLs captured by the `href=` pattern and by the
  `src=` pattern, in order of occurrence.  The filtering, canonicalization and
  set-insertion logic applied to those captures is embedded verbatim.
* `urlparse` models the core of CPython's `urllib.parse.urlparse`:
  scheme split (lowercased, validated), `//`-netloc split (stopping at
  `/`, `?`, `#`), the bracketed-host `ValueError` check (modelled as `none`),
  then fragment and query splits.  The `;`-parameter split, control-character
  stripping and unicode (NFKC) checks of CPython are elided; `Char.toLower`
  is ASCII-only while `str.lower` is unicode-aware.  None of the verified
  properties depend on these elisions.
* `time.sleep`, logging (`print`) and `datetime.now()` are side effects with
  no influence on the crawl state and are dropped.
* Python's `None >= 400` `TypeError` (reachable in the classification branch
  when a fetch error message is the empty string) is modelled explicitly as a
  `crashed` step outcome.
-/

namespace LinkChecker

/-! ## List helpers used by the URL parser -/

/-- Split a list at the first occurrence of `sep`: `some (before, after)` when
`sep` occurs, `none` otherwise (`before` excludes `sep`). -/
def breakOnFirst (sep : Char) : List Char → Option (List Char × List Char)
  | [] => none
  | c :: cs =>
    if c = sep then some ([], cs)
    else (breakOnFirst sep cs).map (fun p => (c :: p.1, p.2))

/-- Python's `url.split(sep, 1)` guarded by `if sep in url`: splits at the
first occurrence of `sep`; when `sep` is absent, the whole list with an empty
remainder. -/
def splitFirst (sep : Char) (l : List Char) : List Char × List Char :=
  match breakOnFirst sep l with
  | some p => p
  | none => (l, [])

/-! ## URL parsing (`urllib.parse.urlparse` core) -/

/-- Characters allowed in a URL scheme after the first (CPython
`scheme_chars`). -/
def schemeChar (c : Char) : Bool :=
  c.isAlpha || c.isDigit || c = '+' || c = '-' || c = '.'

/-- CPython's scheme validity test for the text before the first `:`:
non-empty, starts with an (ASCII) letter, all characters in `scheme_chars`. -/
def validScheme : List Char → Bool
  | [] => false
  | c :: cs => c.isAlpha && (c :: cs).all schemeChar

/-- Characters that terminate the netloc scan (CPython `_splitnetloc` stops at
the first of `/`, `?`, `#`). -/
def netlocChar (c : Char) : Bool :=
  !(c = '/' || c = '?' || c = '#')

/-- Result of `urlparse`: the five components the script reads (the unused
`params` component of CPython is kept inside `path`, see the header note). -/
structure UrlParts where
  scheme : String
  netloc : String
  path : String
  query : String
  fragment : String
deriving Repr, DecidableEq

/-- Scheme split: if the text before the first `:` is a valid scheme, return
it lowercased together with the remainder, else no scheme. -/
def schemeSplit (l : List Char) : List Char × List Char :=
  match breakOnFirst ':' l with
  | some (pre, post) =>
    if validScheme pre then (pre.map Char.toLower, post) else ([], l)
  | none => ([], l)

/-- Netloc split: when the remainder starts with `//`, the netloc is the run
of characters up to the first `/`, `?` or `#`. -/
def netlocSplit (l : List Char) : List Char × List Char :=
  if l.take 2 = ['/', '/'] then
    ((l.drop 2).takeWhile netlocChar, (l.drop 2).dropWhile netlocChar)
  else ([], l)

/-- Core of `urllib.parse.urlparse` on character lists; `none` models the
`ValueError` raised for an unbalanced bracketed host. -/
def urlparseL (l : List Char) :
    Option (List Char × List Char × List Char × List Char × List Char) :=
  let s := schemeSplit l
  let n := netlocSplit s.2
  if ('[' ∈ n.1) ≠ (']' ∈ n.1) then none
  else
    let pf := splitFirst '#' n.2
    let pq := splitFirst '?' pf.1
    some (s.1, n.1, pq.1, pq.2, pf.2)

/-- `urllib.parse.urlparse` on strings; `none` models a raised `ValueError`. -/
def urlparse (s : String) : Option UrlParts :=
  (urlparseL s.data).map (fun r =>
    ⟨⟨r.1⟩, ⟨r.2.1⟩, ⟨r.2.2.1⟩, ⟨r.2.2.2.1⟩, ⟨r.2.2.2.2⟩⟩)

/-- The `clean_url` built by the script from a parse result:
`f"{parsed.scheme}://{parsed.netloc}{parsed.path}"`. -/
def UrlParts.clean (p : UrlParts) : String :=
  p.scheme ++ "://" ++ p.netloc ++ p.path

/-- Canonical form of a URL as used for deduplication: scheme + authority +
path, fragment and query dropped; `none` when parsing fails. -/
def canonicalize (s : String) : Option String :=
  (urlparse s).map UrlParts.clean

/-- The authority (netloc) component of a URL, when it parses. -/
def authorityOf (s : String) : Option String :=
  (urlparse s).map UrlParts.netloc

/-! ## String helpers (Python `str` methods used by the script) -/

/-- Python `str.startswith`. -/
def strStartsWith (s pre : String) : Bool :=
  pre.data.isPrefixOf s.data

/-- Python `str.endswith`. -/
def strEndsWith (s suf : String) : Bool :=
  suf.data.isSuffixOf s.data

/-- Python `str.lower` (ASCII approximation, see header note). -/
def lowerStr (s : String) : String :=
  ⟨s.data.map Char.toLower⟩

/-- Python `sub in s` (substring containment). -/
def containsSub (s sub : String) : Bool :=
  s.data.tails.any (fun t => sub.data.isPrefixOf t)

/-- Python `url.rstrip('/')`. -/
def rstripSlash (s : String) : String :=
  ⟨(s.data.reverse.dropWhile (fun c => c = '/')).reverse⟩

/-! ## The URL filter (`LinkChecker.is_valid_url`) -/

/-- The fixed denylist of non-page file extensions (`skip_extensions`). -/
def skip_extensions : List String :=
  [".png", ".jpg", ".jpeg", ".gif", ".svg", ".ico",
   ".css", ".js", ".pdf", ".zip", ".exe", ".dmg"]

/-- `LinkChecker.is_valid_url`, lines 37-62.  `base_url` is `self.base_url`
(the seed with trailing slashes stripped) and `visited` is `self.visited`.
Any exception inside the `try` block (modelled: a parse failure of either URL)
yields `False`. -/
def is_valid_url (base_url : String) (visited : Finset String) (url : String) :
    Bool :=
  match urlparse url, urlparse base_url with
  | some parsed, some base_parsed =>
    -- Only check URLs from the same domain
    if parsed.netloc ≠ "" ∧ parsed.netloc ≠ base_parsed.netloc then false
    -- Skip non-HTTP(S) protocols
    else if parsed.scheme ≠ "" ∧ parsed.scheme ∉ ["http", "https"] then false
    -- Skip common file extensions that aren't web pages
    else if skip_extensions.any (fun ext => strEndsWith (lowerStr url) ext) then
      false
    -- Skip fragments and query parameters for crawling purposes
    else decide (parsed.clean ∉ visited)
  | _, _ => false

/-! ## Link extraction (`LinkChecker.extract_links`) -/

/-- The resolved attribute values captured by the two regular-expression
scans of a page body: `hrefs` are the `urljoin`-resolved `href=` captures,
`srcs` the resolved `src=` captures, each in order of occurrence. -/
structure Page where
  hrefs : List String
  srcs : List String

/-- Insertion into the `links` set, modelled as a duplicate-free list in
insertion order (Python set iteration order is irrelevant to every property
proved below, which are membership statements). -/
def addLink (links : List String) (l : String) : List String :=
  if l ∈ links then links else links ++ [l]

/-- The `href` loop of `extract_links`: each resolved capture passing
`is_valid_url` is canonicalized and added to the set. -/
def hrefLinks (base_url : String) (visited : Finset String)
    (links : List String) : List String → List String
  | [] => links
  | r :: rs =>
    hrefLinks base_url visited
      (if is_valid_url base_url visited r then
        match urlparse r with
        | some parsed => addLink links parsed.clean
        | none => links
      else links) rs

/-- The `src` loop of `extract_links`: each resolved capture whose absolute
form starts with the base URL is added raw (no filtering, no
canonicalization). -/
def srcLinks (base_url : String) (links : List String) :
    List String → List String
  | [] => links
  | r :: rs =>
    srcLinks base_url
      (if strStartsWith r base_url then addLink links r else links) rs

/-- `LinkChecker.extract_links`, lines 64-87 (post-regex, post-`urljoin`; see
the header note). -/
def extract_links (base_url : String) (visited : Finset String) (pg : Page) :
    List String :=
  srcLinks base_url (hrefLinks base_url visited [] pg.hrefs) pg.srcs

/-! ## The fetch boundary (`LinkChecker.check_url`) -/

/-- Outcome of one `session.get` at the network level: a response, or a
`requests.exceptions.RequestException` carrying `str(e)`. -/
inductive NetOutcome where
  | success (status : Nat) (rtime : Nat) (finalUrl : String)
      (contentType : String)
  | failure (msg : String)
deriving Repr, DecidableEq

/-- The dictionary returned by `check_url`. -/
structure FetchResult where
  url : String
  status_code : Option Nat
  response_time : Option Nat
  final_url : Option String
  content_type : Option String
  error : Option String
deriving Repr, DecidableEq

/-- `LinkChecker.check_url`, lines 89-111: a total function of the network
outcome — on success every response field is populated and `error` is `None`;
on a `RequestException` every response field is `None` and `error` is
`str(e)`. -/
def check_url (url : String) (o : NetOutcome) : FetchResult :=
  match o with
  | .success status rtime finalUrl contentType =>
    ⟨url, some status, some rtime, some finalUrl, some contentType, none⟩
  | .failure msg =>
    ⟨url, none, none, none, none, some msg⟩

/-! ## The crawl loop (`LinkChecker.crawl`) -/

/-- Classification of a fetch result by the crawl loop, lines 133-147. -/
inductive Classification where
  | broken (issue : String)
  | valid
  | crash (msg : String)
deriving Repr, DecidableEq

/-- The `elif result['status_code'] >= 400` test.  When `status_code` is
`None`, Python raises `TypeError` (comparison of `NoneType` and `int`). -/
def statusClassify (result : FetchResult) : Classification :=
  match result.status_code with
  | none => .crash "TypeError: not supported between instances of NoneType and int"
  | some c => if 400 ≤ c then .broken ("HTTP " ++ toString c ++ " error") else .valid

/-- The `if result['error']:` / `elif` / `else` classification, lines 133-147.
An errored fetch is broken with issue `Connection error: <message>`; note the
empty string is falsy in Python, so an empty error message falls through to
the status comparison. -/
def classify (result : FetchResult) : Classification :=
  match result.error with
  | some m =>
    if m ≠ "" then .broken ("Connection error: " ++ m) else statusClassify result
  | none => statusClassify result

/-- The guard of lines 150-152: `result['content_type'] and 'text/html' in
result['content_type'] and result['status_code'] == 200`. -/
def wantsExtraction (result : FetchResult) : Bool :=
  match result.content_type with
  | none => false
  | some ct => ct ≠ "" && containsSub ct "text/html" && result.status_code = some 200

/-- The mutable crawl state: `self.visited`, `self.to_visit`,
`self.valid_links`, `self.broken_links`, the local `pages_checked` counter,
and `fetchCalls`, an instrumentation counter incremented exactly where
`check_url` (the Fetcher) is invoked. -/
structure CrawlState where
  visited : Finset String
  to_visit : List String
  valid_links : List FetchResult
  broken_links : List (FetchResult × String)
  pagesChecked : Nat
  fetchCalls : Nat
deriving DecidableEq

/-- The crawl's collaborators and configuration: the network oracle for the
classification GET (`fetch1`) and for the extraction GET (`fetch2`, body or
raised exception), the seed URL and `max_pages`. -/
structure Env where
  fetch1 : String → NetOutcome
  fetch2 : String → Except String Page
  seed : String
  max_pages : Nat

/-- `self.base_url = base_url.rstrip('/')`, line 19. -/
def Env.base (e : Env) : String := rstripSlash e.seed

/-- Crawl state at entry of the `while` loop: empty visited set, frontier
seeded with the (unstripped) base URL, line 22-23 and line 119. -/
def initState (e : Env) : CrawlState :=
  { visited := ∅, to_visit := [e.seed], valid_links := [], broken_links := [],
    pagesChecked := 0, fetchCalls := 0 }

/-- Result of one iteration of the `while` loop: loop exit, a propagating
`TypeError`, or the state at the next iteration boundary. -/
inductive StepResult where
  | done (st : CrawlState)
  | crashed (msg : String) (st : CrawlState)
  | next (st : CrawlState)
deriving DecidableEq

/-- The state carried by a step result. -/
def StepResult.state : StepResult → CrawlState
  | .done st => st
  | .crashed _ st => st
  | .next st => st

/-- One iteration of the crawl loop, lines 121-163.  Matches the source:
guard (`to_visit` non-empty and `pages_checked < max_pages`), FIFO dequeue,
skip of already-visited URLs, visit marking and counting, fetch, classify,
conditional extraction with the second GET (failures swallowed), and the
append of each extracted link not yet visited. -/
def crawlStep (e : Env) (st : CrawlState) : StepResult :=
  match st.to_visit with
  | [] => .done st
  | current :: rest =>
    if st.pagesChecked < e.max_pages then
      if current ∈ st.visited then .next { st with to_visit := rest }
      else
        let st1 : CrawlState :=
          { st with
              to_visit := rest,
              visited := insert current st.visited,
              pagesChecked := st.pagesChecked + 1,
              fetchCalls := st.fetchCalls + 1 }
        let result := check_url current (e.fetch1 current)
        match classify result with
        | .crash m => .crashed m st1
        | .broken issue =>
          .next { st1 with broken_links := st1.broken_links ++ [(result, issue)] }
        | .valid =>
          let st2 : CrawlState :=
            { st1 with valid_links := st1.valid_links ++ [result] }
          if wantsExtraction result then
            match e.fetch2 current with
            | .ok page =>
              .next { st2 with
                        to_visit := st2.to_visit ++
                          (extract_links e.base st2.visited page).filter
                            (fun l => l ∉ st2.visited) }
            | .error _ => .next st2
          else .next st2
    else .done st

/-- The state after marking `current` visited and counting it (lines 127-128),
with the one Fetcher invocation of the iteration counted in `fetchCalls`. -/
def visit (st : CrawlState) (current : String) (rest : List String) :
    CrawlState :=
  { st with
      to_visit := rest,
      visited := insert current st.visited,
      pagesChecked := st.pagesChecked + 1,
      fetchCalls := st.fetchCalls + 1 }

/-- Fueled iteration of the crawl loop: `some` when the loop exits (or the
`TypeError` propagates) within `n` iterations, `none` when fuel runs out. -/
def runFuel (e : Env) : Nat → CrawlState → Option StepResult
  | 0, _ => none
  | n + 1, st =>
    match crawlStep e st with
    | .done st' => some (.done st')
    | .crashed m st' => some (.crashed m st')
    | .next st' => runFuel e n st'

/-- `st'` is an iteration boundary of the loop reachable from `st`. -/
inductive Reaches (e : Env) : CrawlState → CrawlState → Prop
  | refl (st : CrawlState) : Reaches e st st
  | step {st st' st'' : CrawlState} :
      crawlStep e st = .next st' → Reaches e st' st'' → Reaches e st st''

/-! ## Report generation (`LinkChecker.generate_report`) -/

/-- The `scan_info` block of the report (the `timestamp` field, an external
`datetime.now()` effect, is omitted). -/
structure ScanInfo where
  base_url : String
  total_pages_checked : Nat
  total_links_found : Nat
deriving DecidableEq

/-- The `summary` block of the report; the success-rate arithmetic is
modelled over `ℚ` (exact rational division in place of Python floats). -/
structure Summary where
  valid_links : Nat
  broken_links : Nat
  success_rate : ℚ
deriving DecidableEq

/-- The full report dictionary. -/
structure Report where
  scan_info : ScanInfo
  summary : Summary
  broken_links : List (FetchResult × String)
  valid_links : List FetchResult

/-- `LinkChecker.generate_report`, lines 168-186. -/
def generate_report (base_url : String) (st : CrawlState) : Report :=
  { scan_info :=
      { base_url := base_url
        total_pages_checked := st.visited.card
        total_links_found := st.valid_links.length + st.broken_links.length }
    summary :=
      { valid_links := st.valid_links.length
        broken_links := st.broken_links.length
        success_rate :=
          if 0 < st.valid_links.length + st.broken_links.length then
            ((st.valid_links.length : ℚ) /
              ((st.valid_links.length : ℚ) + (st.broken_links.length : ℚ))) * 100
          else 0 }
    broken_links := st.broken_links
    valid_links := st.valid_links }

/-! ## Concrete environments used by witnesses and counterexamples -/

/-- A network where every fetch fails with message `refused`. -/
def envC1x : Env :=
  { fetch1 := fun _ => .failure "refused", fetch2 := fun _ => .error "x",
    seed := "http://h", max_pages := 5 }

/-- A network where every fetch fails with message `refused` (witness copy). -/
def envC1w : Env :=
  { fetch1 := fun _ => .failure "refused", fetch2 := fun _ => .error "x",
    seed := "http://h", max_pages := 5 }

/-- An environment with a zero page budget. -/
def envC2w : Env :=
  { fetch1 := fun _ => .failure "refused", fetch2 := fun _ => .error "x",
    seed := "http://h", max_pages := 0 }

/-- The seed page carries a `src` resource reference that differs from the
seed only by a query string. -/
def envC3x : Env :=
  { fetch1 := fun u => .success 200 1 u "text/html"
    fetch2 := fun u =>
      if u = "http://h/p" then .ok ⟨[], ["http://h/p?q=1"]⟩ else .ok ⟨[], []⟩
    seed := "http://h/p"
    max_pages := 10 }

/-- The seed page carries a `src` reference to `http://a.bc/x`, a foreign
authority whose URL string extends the base URL `http://a.b`. -/
def envC7x : Env :=
  { fetch1 := fun u => .success 200 1 u "text/html"
    fetch2 := fun u =>
      if u = "http://a.b" then .ok ⟨[], ["http://a.bc/x"]⟩ else .ok ⟨[], []⟩
    seed := "http://a.b"
    max_pages := 10 }

/-- The seed page links to one same-host page (witness environment). -/
def envC7w : Env :=
  { fetch1 := fun u => .success 200 1 u "text/html"
    fetch2 := fun u =>
      if u = "http://h" then .ok ⟨["http://h/a"], []⟩ else .ok ⟨[], []⟩
    seed := "http://h"
    max_pages := 10 }

/-- An idle environment (witness for the counting invariant). -/
def envC10w : Env :=
  { fetch1 := fun _ => .failure "refused", fetch2 := fun _ => .error "x",
    seed := "http://h", max_pages := 3 }

/-- A fetch result for a reachable page (witness data). -/
def resC8w : FetchResult :=
  ⟨"http://h", some 200, some 1, some "http://h", some "text/html", none⟩

/-- A crawl state with one valid and no broken record (witness data). -/
def stC8w : CrawlState :=
  { visited := {"http://h"}, to_visit := [], valid_links := [resC8w],
    broken_links := [], pagesChecked := 1, fetchCalls := 1 }

/-! ## Helper lemmas: characters (`str.lower`, scheme characters) -/

/-- `Char.ofNat` of a valid codepoint decodes to that codepoint. -/
theorem char_toNat_ofNat {n : Nat} (h : n.isValidChar) :
    (Char.ofNat n).toNat = n := by
  rw [Char.ofNat, dif_pos h]
  simp [Char.ofNatAux, Char.toNat, UInt32.toNat, BitVec.toNat_ofNatLt]

/-- Character equality through codepoints. -/
theorem char_eq_iff (c d : Char) : c = d ↔ c.toNat = d.toNat :=
  ⟨fun h => by rw [h], fun h => Char.ext (UInt32.ext h)⟩

/-- `Char.isUpper` through codepoints. -/
theorem isUpper_eq (c : Char) :
    c.isUpper = (decide (65 ≤ c.toNat) && decide (c.toNat ≤ 90)) := by
  unfold Char.isUpper
  congr 1

/-- `Char.isLower` through codepoints. -/
theorem isLower_eq (c : Char) :
    c.isLower = (decide (97 ≤ c.toNat) && decide (c.toNat ≤ 122)) := by
  unfold Char.isLower
  congr 1

/-- `Char.isDigit` through codepoints. -/
theorem isDigit_eq (c : Char) :
    c.isDigit = (decide (48 ≤ c.toNat) && decide (c.toNat ≤ 57)) := by
  unfold Char.isDigit
  congr 1

/-- The codepoint of a lowercased character. -/
theorem toNat_toLower (c : Char) :
    c.toLower.toNat =
      if 65 ≤ c.toNat ∧ c.toNat ≤ 90 then c.toNat + 32 else c.toNat := by
  unfold Char.toLower
  simp only []
  split
  · exact char_toNat_ofNat (Or.inl (by omega))
  · rfl

/-- Lowercasing fixes every character outside the upper-case range. -/
theorem toLower_eq_self (c : Char) (h : ¬ (65 ≤ c.toNat ∧ c.toNat ≤ 90)) :
    c.toLower = c := by
  unfold Char.toLower
  simp only []
  split
  · next h' => exact absurd h' h
  · rfl

/-- Lowercasing is idempotent. -/
theorem toLower_toLower (c : Char) : c.toLower.toLower = c.toLower := by
  by_cases h : 65 ≤ c.toNat ∧ c.toNat ≤ 90
  · apply toLower_eq_self
    rw [toNat_toLower c, if_pos h]
    omega
  · rw [toLower_eq_self c h]
    exact toLower_eq_self c h

/-- `Char.isAlpha` through codepoints. -/
theorem isAlpha_iff (c : Char) : c.isAlpha = true ↔
    (65 ≤ c.toNat ∧ c.toNat ≤ 90) ∨ (97 ≤ c.toNat ∧ c.toNat ≤ 122) := by
  unfold Char.isAlpha
  rw [isUpper_eq, isLower_eq]
  simp

/-- Lowercasing preserves letters. -/
theorem isAlpha_toLower (c : Char) (h : c.isAlpha = true) :
    c.toLower.isAlpha = true := by
  rw [isAlpha_iff] at h ⊢
  rw [toNat_toLower]
  split
  · omega
  · omega

/-- Scheme characters through codepoints. -/
theorem schemeChar_iff (c : Char) : schemeChar c = true ↔
    (65 ≤ c.toNat ∧ c.toNat ≤ 90) ∨ (97 ≤ c.toNat ∧ c.toNat ≤ 122) ∨
    (48 ≤ c.toNat ∧ c.toNat ≤ 57) ∨ c.toNat = 43 ∨ c.toNat = 45 ∨
    c.toNat = 46 := by
  unfold schemeChar
  rw [isDigit_eq]
  simp only [Bool.or_eq_true, Bool.and_eq_true, decide_eq_true_eq, isAlpha_iff,
    char_eq_iff c '+', char_eq_iff c '-', char_eq_iff c '.',
    show ('+' : Char).toNat = 43 from rfl, show ('-' : Char).toNat = 45 from rfl,
    show ('.' : Char).toNat = 46 from rfl]
  omega

/-- Lowercasing preserves scheme characters. -/
theorem schemeChar_toLower (c : Char) (h : schemeChar c = true) :
    schemeChar c.toLower = true := by
  rw [schemeChar_iff] at h ⊢
  rw [toNat_toLower]
  split <;> omega

/-! ## Helper lemmas: list splitting -/

theorem breakOnFirst_eq_none {sep : Char} {l : List Char} :
    breakOnFirst sep l = none ↔ sep ∉ l := by
  induction l with
  | nil => simp [breakOnFirst]
  | cons c cs ih =>
    by_cases h : c = sep
    · subst h
      simp [breakOnFirst]
    · simp [breakOnFirst, h, ih, Ne.symm h]

theorem breakOnFirst_eq_some {sep : Char} {l a b : List Char}
    (h : breakOnFirst sep l = some (a, b)) : l = a ++ sep :: b ∧ sep ∉ a := by
  induction l generalizing a b with
  | nil => simp [breakOnFirst] at h
  | cons c cs ih =>
    rw [breakOnFirst] at h
    by_cases hc : c = sep
    · rw [if_pos hc] at h
      simp only [Option.some.injEq, Prod.mk.injEq] at h
      obtain ⟨h1, h2⟩ := h
      subst h1
      subst h2
      subst hc
      simp
    · rw [if_neg hc] at h
      cases hbc : breakOnFirst sep cs with
      | none => rw [hbc] at h; simp at h
      | some p =>
        obtain ⟨p1, p2⟩ := p
        rw [hbc] at h
        simp only [Option.map_some', Option.some.injEq, Prod.mk.injEq] at h
        obtain ⟨h1, h2⟩ := h
        subst h1
        subst h2
        obtain ⟨hl, hm⟩ := ih hbc
        refine ⟨by rw [hl]; simp, ?_⟩
        intro hmem
        rcases List.mem_cons.mp hmem with h | h
        · exact hc h.symm
        · exact hm h

theorem breakOnFirst_append_of_not_mem {sep : Char} {a : List Char}
    (l : List Char) (h : sep ∉ a) :
    breakOnFirst sep (a ++ l) =
      (breakOnFirst sep l).map (fun p => (a ++ p.1, p.2)) := by
  induction a with
  | nil =>
    simp only [List.nil_append]
    cases breakOnFirst sep l with
    | none => rfl
    | some p => rfl
  | cons c cs ih =>
    have hc : ¬ c = sep := fun hcc => h (hcc ▸ List.mem_cons_self c cs)
    have hcs : sep ∉ cs := fun hm => h (List.mem_cons_of_mem c hm)
    rw [List.cons_append, breakOnFirst, if_neg hc, ih hcs]
    cases breakOnFirst sep l with
    | none => rfl
    | some p => rfl

theorem breakOnFirst_append_sep {sep : Char} {a : List Char}
    (b : List Char) (h : sep ∉ a) :
    breakOnFirst sep (a ++ sep :: b) = some (a, b) := by
  rw [breakOnFirst_append_of_not_mem (sep :: b) h]
  rw [show breakOnFirst sep (sep :: b) = some ([], b) by
    rw [breakOnFirst, if_pos rfl]]
  simp

theorem splitFirst_of_not_mem {sep : Char} {l : List Char} (h : sep ∉ l) :
    splitFirst sep l = (l, []) := by
  rw [splitFirst, breakOnFirst_eq_none.mpr h]

theorem splitFirst_append_sep {sep : Char} {a : List Char}
    (b : List Char) (h : sep ∉ a) :
    splitFirst sep (a ++ sep :: b) = (a, b) := by
  rw [splitFirst, breakOnFirst_append_sep b h]

theorem splitFirst_append_fst {sep : Char} {a : List Char}
    (l : List Char) (h : sep ∉ a) :
    (splitFirst sep (a ++ l)).1 = a ++ (splitFirst sep l).1 := by
  rw [splitFirst, splitFirst, breakOnFirst_append_of_not_mem l h]
  cases breakOnFirst sep l with
  | none => rfl
  | some p => rfl

theorem splitFirst_cons_ne {sep x : Char} (t : List Char) (h : ¬ x = sep) :
    splitFirst sep (x :: t) =
      (x :: (splitFirst sep t).1, (splitFirst sep t).2) := by
  rw [splitFirst, splitFirst, breakOnFirst, if_neg h]
  cases breakOnFirst sep t with
  | none => rfl
  | some p => rfl

theorem splitFirst_fst_not_mem (sep : Char) (l : List Char) :
    sep ∉ (splitFirst sep l).1 := by
  rw [splitFirst]
  cases hb : breakOnFirst sep l with
  | none => exact breakOnFirst_eq_none.mp hb
  | some p => exact (breakOnFirst_eq_some (by rw [hb])).2

theorem splitFirst_fst_subset {sep x : Char} {l : List Char}
    (h : x ∈ (splitFirst sep l).1) : x ∈ l := by
  rw [splitFirst] at h
  cases hb : breakOnFirst sep l with
  | none => rw [hb] at h; exact h
  | some p =>
    rw [hb] at h
    obtain ⟨hl, -⟩ := breakOnFirst_eq_some (by rw [hb] : breakOnFirst sep l = some (p.1, p.2))
    rw [hl]
    exact List.mem_append_left _ h

theorem splitFirst_fst_head (sep : Char) (l : List Char) :
    (splitFirst sep l).1 = [] ∨ (splitFirst sep l).1.head? = l.head? := by
  cases l with
  | nil => exact Or.inl (by rw [splitFirst_of_not_mem (by simp)])
  | cons c t =>
    by_cases hc : c = sep
    · subst hc
      left
      rw [splitFirst, breakOnFirst, if_pos rfl]
    · right
      rw [splitFirst_cons_ne t hc]
      rfl

theorem takeWhile_append_all {p : Char → Bool} {a : List Char}
    (b : List Char) (h : ∀ c ∈ a, p c = true) :
    (a ++ b).takeWhile p = a ++ b.takeWhile p := by
  induction a with
  | nil => simp
  | cons c cs ih =>
    rw [List.cons_append]
    simp only [List.takeWhile_cons, h c (List.mem_cons_self c cs),
      ih (fun x hx => h x (List.mem_cons_of_mem c hx))]
    simp

theorem dropWhile_append_all {p : Char → Bool} {a : List Char}
    (b : List Char) (h : ∀ c ∈ a, p c = true) :
    (a ++ b).dropWhile p = b.dropWhile p := by
  induction a with
  | nil => simp
  | cons c cs ih =>
    rw [List.cons_append, List.dropWhile_cons, h c (List.mem_cons_self c cs)]
    exact ih (fun x hx => h x (List.mem_cons_of_mem c hx))

theorem takeWhile_append_stop {p : Char → Bool} {a b : List Char} {x : Char}
    (hb : b.head? = some x) (hx : p x = false) :
    (a ++ b).takeWhile p = a.takeWhile p := by
  induction a with
  | nil =>
    cases b with
    | nil => simp at hb
    | cons y t =>
      simp only [List.head?_cons, Option.some.injEq] at hb
      subst hb
      simp [List.takeWhile_cons, hx]
  | cons c cs ih =>
    rw [List.cons_append, List.takeWhile_cons, List.takeWhile_cons]
    cases hpc : p c <;> simp [ih]

theorem dropWhile_append_stop {p : Char → Bool} {a b : List Char} {x : Char}
    (hb : b.head? = some x) (hx : p x = false) :
    (a ++ b).dropWhile p = a.dropWhile p ++ b := by
  induction a with
  | nil =>
    cases b with
    | nil => simp at hb
    | cons y t =>
      simp only [List.head?_cons, Option.some.injEq] at hb
      subst hb
      simp [List.dropWhile_cons, hx]
  | cons c cs ih =>
    rw [List.cons_append, List.dropWhile_cons, List.dropWhile_cons]
    cases hpc : p c <;> simp [ih]

/-! ## Helper lemmas about one crawl-loop iteration -/

/-- An empty frontier exits the loop. -/
theorem crawlStep_done_of_empty (e : Env) (st : CrawlState)
    (h : st.to_visit = []) : crawlStep e st = .done st := by
  obtain ⟨vis, tv, val, br, pc, fc⟩ := st
  simp only at h
  subst h
  rfl

/-- An exhausted page budget exits the loop. -/
theorem crawlStep_done_of_budget (e : Env) (st : CrawlState)
    (h : ¬ st.pagesChecked < e.max_pages) : crawlStep e st = .done st := by
  obtain ⟨vis, tv, val, br, pc, fc⟩ := st
  cases tv with
  | nil => rfl
  | cons cur rest => simp only at h; simp [crawlStep, h]

/-- Exhaustive characterization of one iteration of the crawl loop: loop
exit, skip of a visited URL, a propagating `TypeError`, a broken
classification, or a valid classification with the (possibly empty) batch of
newly discovered links appended to the frontier. -/
theorem crawlStep_shape (e : Env) (st : CrawlState) :
    (crawlStep e st = .done st ∧
      (st.to_visit = [] ∨ ¬ st.pagesChecked < e.max_pages))
    ∨ (∃ cur rest, st.to_visit = cur :: rest ∧ st.pagesChecked < e.max_pages ∧
        cur ∈ st.visited ∧ crawlStep e st = .next { st with to_visit := rest })
    ∨ (∃ cur rest m, st.to_visit = cur :: rest ∧
        st.pagesChecked < e.max_pages ∧ cur ∉ st.visited ∧
        classify (check_url cur (e.fetch1 cur)) = .crash m ∧
        crawlStep e st = .crashed m (visit st cur rest))
    ∨ (∃ cur rest issue, st.to_visit = cur :: rest ∧
        st.pagesChecked < e.max_pages ∧ cur ∉ st.visited ∧
        classify (check_url cur (e.fetch1 cur)) = .broken issue ∧
        crawlStep e st = .next { visit st cur rest with
          broken_links := st.broken_links ++
            [(check_url cur (e.fetch1 cur), issue)] })
    ∨ (∃ cur rest newLinks, st.to_visit = cur :: rest ∧
        st.pagesChecked < e.max_pages ∧ cur ∉ st.visited ∧
        classify (check_url cur (e.fetch1 cur)) = .valid ∧
        (newLinks = [] ∨ ∃ pg, e.fetch2 cur = .ok pg ∧
          newLinks = (extract_links e.base (insert cur st.visited) pg).filter
            (fun l => l ∉ insert cur st.visited)) ∧
        crawlStep e st = .next { visit st cur rest with
          valid_links := st.valid_links ++ [check_url cur (e.fetch1 cur)],
          to_visit := rest ++ newLinks }) := by
  obtain ⟨vis, tv, val, br, pc, fc⟩ := st
  cases tv with
  | nil => exact Or.inl ⟨rfl, Or.inl rfl⟩
  | cons cur rest =>
    by_cases hp : pc < e.max_pages
    · by_cases hm : cur ∈ vis
      · refine Or.inr (Or.inl ⟨cur, rest, rfl, hp, hm, ?_⟩)
        simp [crawlStep, hp, hm]
      · rcases hc : classify (check_url cur (e.fetch1 cur)) with issue | _ | m
        · refine Or.inr (Or.inr (Or.inr (Or.inl ⟨cur, rest, issue, rfl, hp, hm, hc, ?_⟩)))
          simp [crawlStep, hp, hm, hc, visit]
        · by_cases hw : wantsExtraction (check_url cur (e.fetch1 cur))
          · cases hf : e.fetch2 cur with
            | ok pg =>
              refine Or.inr (Or.inr (Or.inr (Or.inr
                ⟨cur, rest, (extract_links e.base (insert cur vis) pg).filter
                  (fun l => l ∉ insert cur vis), rfl, hp, hm, hc,
                  Or.inr ⟨pg, hf, rfl⟩, ?_⟩)))
              simp [crawlStep, hp, hm, hc, hw, hf, visit]
            | error msg =>
              refine Or.inr (Or.inr (Or.inr (Or.inr
                ⟨cur, rest, [], rfl, hp, hm, hc, Or.inl rfl, ?_⟩)))
              simp [crawlStep, hp, hm, hc, hw, hf, visit]
          · refine Or.inr (Or.inr (Or.inr (Or.inr
              ⟨cur, rest, [], rfl, hp, hm, hc, Or.inl rfl, ?_⟩)))
            simp [crawlStep, hp, hm, hc, hw, visit]
        · refine Or.inr (Or.inr (Or.inl ⟨cur, rest, m, rfl, hp, hm, hc, ?_⟩))
          simp [crawlStep, hp, hm, hc, visit]
    · exact Or.inl
        ⟨crawlStep_done_of_budget e ⟨vis, cur :: rest, val, br, pc, fc⟩ hp,
          Or.inr hp⟩

/-- Transport of a state invariant along reachable iteration boundaries. -/
theorem reaches_invariant {e : Env} {P : CrawlState → Prop}
    (hstep : ∀ st st', crawlStep e st = .next st' → P st → P st') :
    ∀ {st st' : CrawlState}, Reaches e st st' → P st → P st' := by
  intro st st' h
  induction h with
  | refl => exact id
  | step h1 _ ih => exact fun hp => ih (hstep _ _ h1 hp)

/-- Transport of a state invariant through a fueled run, including the state
carried by the terminal (or crashed) outcome. -/
theorem runFuel_invariant {e : Env} {P : CrawlState → Prop}
    (hstep : ∀ st, P st → P (crawlStep e st).state) :
    ∀ (n : Nat) (st : CrawlState) (res : StepResult),
      runFuel e n st = some res → P st → P res.state := by
  intro n
  induction n with
  | zero => intro st res h; simp [runFuel] at h
  | succ n ih =>
    intro st res h hp
    have hst := hstep st hp
    rw [runFuel] at h
    cases hc : crawlStep e st with
    | done s =>
      rw [hc] at h hst
      cases h
      exact hst
    | crashed m s =>
      rw [hc] at h hst
      cases h
      exact hst
    | next s =>
      rw [hc] at h hst
      exact ih s res h hst

/-- A `next` step either shrinks the frontier at constant page count (the
skip branch) or counts one more page under the budget guard. -/
theorem step_next_measure (e : Env) (st st' : CrawlState)
    (h : crawlStep e st = .next st') :
    (st'.pagesChecked = st.pagesChecked ∧
      st'.to_visit.length < st.to_visit.length) ∨
    (st.pagesChecked < e.max_pages ∧
      st'.pagesChecked = st.pagesChecked + 1) := by
  rcases crawlStep_shape e st with ⟨hd, -⟩
    | ⟨cur, rest, htv, hp, _, hs⟩
    | ⟨cur, rest, m, htv, hp, _, _, hs⟩
    | ⟨cur, rest, issue, htv, hp, _, _, hs⟩
    | ⟨cur, rest, newLinks, htv, hp, _, _, _, hs⟩
  · rw [hd] at h; cases h
  · rw [hs] at h; cases h; exact Or.inl ⟨rfl, by simp [htv]⟩
  · rw [hs] at h; cases h
  · rw [hs] at h; cases h; exact Or.inr ⟨hp, rfl⟩
  · rw [hs] at h; cases h; exact Or.inr ⟨hp, rfl⟩

/-- The budget invariant: the Fetcher-invocation counter tracks
`pages_checked`, which never exceeds `max_pages`. -/
theorem budget_preserved (e : Env) (st : CrawlState)
    (h : st.fetchCalls = st.pagesChecked ∧ st.pagesChecked ≤ e.max_pages) :
    (crawlStep e st).state.fetchCalls = (crawlStep e st).state.pagesChecked ∧
      (crawlStep e st).state.pagesChecked ≤ e.max_pages := by
  rcases crawlStep_shape e st with ⟨hd, -⟩
    | ⟨cur, rest, htv, hp, _, hs⟩
    | ⟨cur, rest, m, htv, hp, _, _, hs⟩
    | ⟨cur, rest, issue, htv, hp, _, _, hs⟩
    | ⟨cur, rest, newLinks, htv, hp, _, _, _, hs⟩ <;>
  first
    | (rw [hd]; exact h)
    | (rw [hs]; simp only [StepResult.state, visit]; exact ⟨by omega, by omega⟩)

/-! ## Claim theorems -/

/-- C4: for every input URL and every fetch outcome, `check_url` returns a
`FetchResult` value (it is a total function of the outcome), and in that
value exactly one of `status_code` and `error` is populated: on success
`status_code` is set and `error` is `None`; on failure `error` is the
exception message and `status_code`, `response_time`, `final_url` and
`content_type` are all `None`. -/
theorem C4_fetch_boundary (url : String) (o : NetOutcome) :
    (check_url url o).url = url ∧
    (((check_url url o).error = none ∧ (check_url url o).status_code.isSome ∧
        (∀ s t f c, o = .success s t f c →
          (check_url url o).status_code = some s)) ∨
      ((check_url url o).error.isSome ∧ (check_url url o).status_code = none ∧
        (check_url url o).response_time = none ∧
        (check_url url o).final_url = none ∧
        (check_url url o).content_type = none ∧
        (∀ m, o = .failure m → (check_url url o).error = some m))) := by
  cases o with
  | success s t f c =>
    refine ⟨rfl, Or.inl ⟨rfl, rfl, ?_⟩⟩
    intro s' t' f' c' h
    cases h
    rfl
  | failure m =>
    refine ⟨rfl, Or.inr ⟨rfl, rfl, rfl, rfl, rfl, ?_⟩⟩
    intro m' h
    cases h
    rfl

/-- C4 witness: the boundary theorem evaluated at a concrete success and a
concrete failure outcome. -/
theorem C4_fetch_boundary_witness :
    ((.success 200 1 "http://h" "text/html" : NetOutcome) =
        .success 200 1 "http://h" "text/html" ∧
      (check_url "http://h" (.success 200 1 "http://h" "text/html")).status_code
        = some 200) ∧
    ((.failure "refused" : NetOutcome) = .failure "refused" ∧
      (check_url "http://h" (.failure "refused")).error = some "refused") := by
  refine ⟨⟨rfl, ?_⟩, ⟨rfl, ?_⟩⟩
  · rcases C4_fetch_boundary "http://h" (.success 200 1 "http://h" "text/html")
      with ⟨-, ⟨-, -, hs⟩ | ⟨-, hnone, -⟩⟩
    · exact hs 200 1 "http://h" "text/html" rfl
    · cases hnone
  · rcases C4_fetch_boundary "http://h" (.failure "refused")
      with ⟨-, ⟨hnone, -⟩ | ⟨-, -, -, -, -, hf⟩⟩
    · cases hnone
    · exact hf "refused" rfl

/-- C8: the report's success rate equals `100 * valid / (valid + broken)`
when at least one record exists, and is exactly `0` when both lists are
empty. -/
theorem C8_success_rate (base : String) (st : CrawlState) :
    (0 < st.valid_links.length + st.broken_links.length →
      (generate_report base st).summary.success_rate =
        100 * (st.valid_links.length : ℚ) /
          ((st.valid_links.length : ℚ) + (st.broken_links.length : ℚ))) ∧
    (st.valid_links = [] → st.broken_links = [] →
      (generate_report base st).summary.success_rate = 0) := by
  constructor
  · intro h
    simp only [generate_report, if_pos h]
    ring
  · intro h1 h2
    simp [generate_report, h1, h2]

/-- C8 witness: the success-rate formula evaluated on a one-valid-record
state and on the empty state. -/
theorem C8_success_rate_witness :
    (0 < stC8w.valid_links.length + stC8w.broken_links.length ∧
      (generate_report "http://h" stC8w).summary.success_rate =
        100 * (stC8w.valid_links.length : ℚ) /
          ((stC8w.valid_links.length : ℚ) + (stC8w.broken_links.length : ℚ))) ∧
    ((initState envC10w).valid_links = [] ∧
      (initState envC10w).broken_links = [] ∧
      (generate_report "http://h" (initState envC10w)).summary.success_rate
        = 0) := by
  refine ⟨⟨by decide, (C8_success_rate "http://h" stC8w).1 (by decide)⟩,
    ⟨rfl, rfl, (C8_success_rate "http://h" (initState envC10w)).2 rfl rfl⟩⟩

/-- C2: starting from any frontier content with zero pages checked, the crawl
performs at most `max_pages` Fetcher invocations — both at every reachable
iteration boundary and in the terminal state of any completing run. -/
theorem C2_fetch_budget (e : Env) (st0 : CrawlState)
    (h1 : st0.pagesChecked = 0) (h2 : st0.fetchCalls = 0) :
    (∀ st, Reaches e st0 st → st.fetchCalls ≤ e.max_pages) ∧
    (∀ n res, runFuel e n st0 = some res →
      res.state.fetchCalls ≤ e.max_pages) := by
  have hinit : st0.fetchCalls = st0.pagesChecked ∧
      st0.pagesChecked ≤ e.max_pages := by omega
  constructor
  · intro st hr
    have hp := reaches_invariant (P := fun st =>
        st.fetchCalls = st.pagesChecked ∧ st.pagesChecked ≤ e.max_pages)
      (fun s s' hs hps => by
        have := budget_preserved e s hps
        rwa [hs] at this) hr hinit
    omega
  · intro n res hrun
    have hp := runFuel_invariant (P := fun st =>
        st.fetchCalls = st.pagesChecked ∧ st.pagesChecked ≤ e.max_pages)
      (budget_preserved e) n st0 res hrun hinit
    omega

/-- C2 witness: the budget bound applied to the initial state of a concrete
environment with a zero page budget. -/
theorem C2_fetch_budget_witness :
    (initState envC2w).pagesChecked = 0 ∧ (initState envC2w).fetchCalls = 0 ∧
    (initState envC2w).fetchCalls ≤ envC2w.max_pages := by
  refine ⟨rfl, rfl, ?_⟩
  exact (C2_fetch_budget envC2w (initState envC2w) rfl rfl).1
    (initState envC2w) (Reaches.refl _)

/-- C10: at every iteration boundary reachable from the initial crawl state,
the number of pages checked equals the size of the visited set and equals the
number of valid plus broken records; hence the report's
`total_pages_checked` equals its `total_links_found`. -/
theorem C10_count_invariant (e : Env) (st : CrawlState)
    (h : Reaches e (initState e) st) :
    st.pagesChecked = st.visited.card ∧
    st.pagesChecked = st.valid_links.length + st.broken_links.length ∧
    (generate_report e.base st).scan_info.total_pages_checked =
      (generate_report e.base st).scan_info.total_links_found := by
  have hp := reaches_invariant (P := fun st =>
      st.pagesChecked = st.visited.card ∧
      st.pagesChecked = st.valid_links.length + st.broken_links.length)
    (fun s s' hs hps => by
      rcases crawlStep_shape e s with ⟨hd, -⟩
        | ⟨cur, rest, htv, hpp, _, hss⟩
        | ⟨cur, rest, m, htv, hpp, _, _, hss⟩
        | ⟨cur, rest, issue, htv, hpp, hnm, _, hss⟩
        | ⟨cur, rest, newLinks, htv, hpp, hnm, _, _, hss⟩
      · rw [hd] at hs; cases hs
      · rw [hss] at hs; cases hs; exact hps
      · rw [hss] at hs; cases hs
      · rw [hss] at hs; cases hs
        refine ⟨?_, ?_⟩ <;>
          simp [visit, Finset.card_insert_of_not_mem hnm]
        · omega
        · omega
      · rw [hss] at hs; cases hs
        refine ⟨?_, ?_⟩ <;>
          simp [visit, Finset.card_insert_of_not_mem hnm]
        · omega
        · omega) h
    (by simp [initState])
  refine ⟨hp.1, hp.2, ?_⟩
  simp only [generate_report]
  omega

/-- C10 witness: the counting invariant applied at the initial iteration
boundary of a concrete environment. -/
theorem C10_count_invariant_witness :
    (initState envC10w).pagesChecked = (initState envC10w).visited.card ∧
    (initState envC10w).pagesChecked =
      (initState envC10w).valid_links.length +
        (initState envC10w).broken_links.length := by
  have h := C10_count_invariant envC10w (initState envC10w) (Reaches.refl _)
  exact ⟨h.1, h.2.1⟩

/-- C9: the crawl loop terminates from every state: some finite fuel makes
the fueled run return (each iteration either consumes one frontier element at
constant page count, or counts a page, which can happen at most `max_pages`
times before the budget guard exits the loop; every extraction batch is a
finite list). -/
theorem C9_termination (e : Env) (st : CrawlState) :
    ∃ n, (runFuel e n st).isSome = true := by
  suffices h : ∀ k j st, e.max_pages - st.pagesChecked ≤ k →
      st.to_visit.length ≤ j → ∃ n, (runFuel e n st).isSome = true from
    h _ _ st le_rfl le_rfl
  intro k
  induction k with
  | zero =>
    intro j st hk _
    have hstop : ¬ st.pagesChecked < e.max_pages := by omega
    exact ⟨1, by simp [runFuel, crawlStep_done_of_budget e st hstop]⟩
  | succ k ihk =>
    intro j
    induction j with
    | zero =>
      intro st _ hj
      have hempty : st.to_visit = [] := by
        cases h : st.to_visit with
        | nil => rfl
        | cons a l => rw [h] at hj; simp at hj
      exact ⟨1, by simp [runFuel, crawlStep_done_of_empty e st hempty]⟩
    | succ j ihj =>
      intro st hk hj
      cases hc : crawlStep e st with
      | done s => exact ⟨1, by simp [runFuel, hc]⟩
      | crashed m s => exact ⟨1, by simp [runFuel, hc]⟩
      | next s =>
        rcases step_next_measure e st s hc with ⟨hpc, hlen⟩ | ⟨hlt, hpc⟩
        · obtain ⟨n, hn⟩ := ihj s (by omega) (by omega)
          exact ⟨n + 1, by rw [runFuel, hc]; exact hn⟩
        · obtain ⟨n, hn⟩ := ihk s.to_visit.length s (by omega) le_rfl
          exact ⟨n + 1, by rw [runFuel, hc]; exact hn⟩

/-- An errored fetch with a non-empty message is classified broken with the
capitalized issue prefix of line 136. -/
theorem classify_failure (url m : String) (hm : m ≠ "") :
    classify (check_url url (.failure m)) =
      .broken ("Connection error: " ++ m) := by
  simp [check_url, classify, hm]

/-- A successful fetch is classified by its status code alone. -/
theorem classify_success (url f c : String) (s t : Nat) :
    classify (check_url url (.success s t f c)) =
      if 400 ≤ s then .broken ("HTTP " ++ toString s ++ " error")
      else .valid := by
  simp [check_url, classify, statusClassify]

/-- C1 counterexample: a crawl whose seed fetch fails with message `refused`
appends a broken record whose issue is `Connection error: refused` — with a
capital `C` — so the record's issue is not the claimed
`connection error: refused`. -/
theorem C1_counterexample :
    envC1x.fetch1 "http://h" = .failure "refused" ∧
    (crawlStep envC1x (initState envC1x)).state.broken_links.map
        (fun r => r.2) = ["Connection error: refused"] ∧
    ¬ (crawlStep envC1x (initState envC1x)).state.broken_links.map
        (fun r => r.2) = ["connection error: refused"] := by
  refine ⟨rfl, rfl, by decide⟩

/-- C1 (amended): for every URL processed by the crawl loop, a fetch error
with a non-empty message appends exactly one record, to the broken list, with
issue `Connection error: <message>` (capitalized; an empty error message is
falsy in Python and instead reaches the `None >= 400` comparison); a status
of at least 400 appends exactly one record, to the broken list, with issue
`HTTP <code> error`; otherwise exactly one record is appended, to the valid
list.  In every case the other list is unchanged, so no processed URL's
record is ever appended to both lists. -/
theorem C1_classification (e : Env) (st : CrawlState) (cur : String)
    (rest : List String) (htv : st.to_visit = cur :: rest)
    (hp : st.pagesChecked < e.max_pages) (hm : cur ∉ st.visited) :
    (∀ m, e.fetch1 cur = .failure m → m ≠ "" →
      ∃ st', crawlStep e st = .next st' ∧
        st'.broken_links = st.broken_links ++
          [(check_url cur (e.fetch1 cur), "Connection error: " ++ m)] ∧
        st'.valid_links = st.valid_links) ∧
    (∀ s t f c, e.fetch1 cur = .success s t f c → 400 ≤ s →
      ∃ st', crawlStep e st = .next st' ∧
        st'.broken_links = st.broken_links ++
          [(check_url cur (e.fetch1 cur), "HTTP " ++ toString s ++ " error")] ∧
        st'.valid_links = st.valid_links) ∧
    (∀ s t f c, e.fetch1 cur = .success s t f c → s < 400 →
      ∃ st', crawlStep e st = .next st' ∧
        st'.valid_links = st.valid_links ++ [check_url cur (e.fetch1 cur)] ∧
        st'.broken_links = st.broken_links) := by
  have shape := crawlStep_shape e st
  refine ⟨?_, ?_, ?_⟩
  · intro m hf hm'
    have hcl : classify (check_url cur (e.fetch1 cur)) =
        .broken ("Connection error: " ++ m) := by
      rw [hf]; exact classify_failure cur m hm'
    rcases shape with ⟨-, hcond⟩
      | ⟨c', r', htv', _, hmem, -⟩
      | ⟨c', r', mm, htv', -, -, hc', -⟩
      | ⟨c', r', issue, htv', -, -, hc', hs⟩
      | ⟨c', r', nl, htv', -, -, hc', -, -⟩
    · rcases hcond with h0 | h0
      · rw [htv] at h0; cases h0
      · exact absurd hp h0
    · rw [htv] at htv'; cases htv'; exact absurd hmem hm
    · rw [htv] at htv'
      cases htv'
      rw [hcl] at hc'
      cases hc'
    · rw [htv] at htv'
      cases htv'
      rw [hcl] at hc'
      cases hc'
      exact ⟨_, hs, rfl, rfl⟩
    · rw [htv] at htv'
      cases htv'
      rw [hcl] at hc'
      cases hc'
  · intro s t f c hf h400
    have hcl : classify (check_url cur (e.fetch1 cur)) =
        .broken ("HTTP " ++ toString s ++ " error") := by
      rw [hf, classify_success, if_pos h400]
    rcases shape with ⟨-, hcond⟩
      | ⟨c', r', htv', _, hmem, -⟩
      | ⟨c', r', mm, htv', -, -, hc', -⟩
      | ⟨c', r', issue, htv', -, -, hc', hs⟩
      | ⟨c', r', nl, htv', -, -, hc', -, -⟩
    · rcases hcond with h0 | h0
      · rw [htv] at h0; cases h0
      · exact absurd hp h0
    · rw [htv] at htv'; cases htv'; exact absurd hmem hm
    · rw [htv] at htv'
      cases htv'
      rw [hcl] at hc'
      cases hc'
    · rw [htv] at htv'
      cases htv'
      rw [hcl] at hc'
      cases hc'
      exact ⟨_, hs, rfl, rfl⟩
    · rw [htv] at htv'
      cases htv'
      rw [hcl] at hc'
      cases hc'
  · intro s t f c hf h400
    have hcl : classify (check_url cur (e.fetch1 cur)) = .valid := by
      rw [hf, classify_success, if_neg (by omega)]
    rcases shape with ⟨-, hcond⟩
      | ⟨c', r', htv', _, hmem, -⟩
      | ⟨c', r', mm, htv', -, -, hc', -⟩
      | ⟨c', r', issue, htv', -, -, hc', hs⟩
      | ⟨c', r', nl, htv', -, -, hc', -, hs⟩
    · rcases hcond with h0 | h0
      · rw [htv] at h0; cases h0
      · exact absurd hp h0
    · rw [htv] at htv'; cases htv'; exact absurd hmem hm
    · rw [htv] at htv'
      cases htv'
      rw [hcl] at hc'
      cases hc'
    · rw [htv] at htv'
      cases htv'
      rw [hcl] at hc'
      cases hc'
    · rw [htv] at htv'
      cases htv'
      exact ⟨_, hs, rfl, rfl⟩

/-- C1 witness: the amended classification applied to a concrete crawl whose
seed fetch is refused. -/
theorem C1_classification_witness :
    (initState envC1w).to_visit = "http://h" :: [] ∧
    (initState envC1w).pagesChecked < envC1w.max_pages ∧
    "http://h" ∉ (initState envC1w).visited ∧
    envC1w.fetch1 "http://h" = .failure "refused" ∧ "refused" ≠ "" ∧
    ∃ st', crawlStep envC1w (initState envC1w) = .next st' ∧
      st'.broken_links = (initState envC1w).broken_links ++
        [(check_url "http://h" (envC1w.fetch1 "http://h"),
          "Connection error: " ++ "refused")] ∧
      st'.valid_links = (initState envC1w).valid_links := by
  refine ⟨rfl, by decide, by decide, rfl, by decide, ?_⟩
  exact (C1_classification envC1w (initState envC1w) "http://h" [] rfl
    (by decide) (by decide)).1 "refused" rfl (by decide)

/-! ## Helper lemmas: the URL parser stages -/

theorem netlocChar_false_iff (c : Char) :
    netlocChar c = false ↔ c = '/' ∨ c = '?' ∨ c = '#' := by
  simp [netlocChar]
  tauto

theorem validScheme_all {s : List Char} (h : validScheme s = true) :
    ∀ c ∈ s, schemeChar c = true := by
  cases s with
  | nil => simp
  | cons c cs =>
    rw [validScheme, Bool.and_eq_true, List.all_eq_true] at h
    exact h.2

theorem colon_not_mem_of_validScheme {s : List Char}
    (h : validScheme s = true) : ':' ∉ s := by
  intro hm
  have := validScheme_all h ':' hm
  rw [schemeChar_iff] at this
  simp at this

theorem validScheme_map_toLower {s : List Char} (h : validScheme s = true) :
    validScheme (s.map Char.toLower) = true := by
  cases s with
  | nil => simp [validScheme] at h
  | cons c cs =>
    rw [validScheme, Bool.and_eq_true, List.all_eq_true] at h
    rw [List.map_cons, validScheme, Bool.and_eq_true, List.all_eq_true]
    refine ⟨isAlpha_toLower c h.1, ?_⟩
    intro x hx
    rw [← List.map_cons] at hx
    obtain ⟨y, hy, rfl⟩ := List.mem_map.mp hx
    exact schemeChar_toLower y (h.2 y hy)

theorem schemeSplit_snd_subset {l : List Char} {x : Char}
    (h : x ∈ (schemeSplit l).2) : x ∈ l := by
  rw [schemeSplit] at h
  cases hb : breakOnFirst ':' l with
  | none => rw [hb] at h; exact h
  | some p =>
    rw [hb] at h
    dsimp only at h
    by_cases hv : validScheme p.1 = true
    · rw [if_pos hv] at h
      obtain ⟨hl, -⟩ := breakOnFirst_eq_some
        (by rw [hb] : breakOnFirst ':' l = some (p.1, p.2))
      rw [hl]
      exact List.mem_append_right _ (List.mem_cons_of_mem _ h)
    · rw [if_neg hv] at h
      exact h

theorem schemeSplit_fst_wf (l : List Char) (h : (schemeSplit l).1 ≠ []) :
    validScheme (schemeSplit l).1 = true ∧
      (schemeSplit l).1.map Char.toLower = (schemeSplit l).1 := by
  rw [schemeSplit] at h ⊢
  cases hb : breakOnFirst ':' l with
  | none => rw [hb] at h; simp at h
  | some p =>
    rw [hb] at h
    dsimp only at h ⊢
    by_cases hv : validScheme p.1 = true
    · rw [if_pos hv] at h ⊢
      refine ⟨validScheme_map_toLower hv, ?_⟩
      rw [List.map_map]
      apply List.map_congr_left
      intro c _
      exact toLower_toLower c
    · rw [if_neg hv] at h
      simp at h

theorem schemeSplit_of_scheme (s rest : List Char) (hs : validScheme s = true)
    (hlow : s.map Char.toLower = s) :
    schemeSplit (s ++ ':' :: rest) = (s, rest) := by
  rw [schemeSplit,
    breakOnFirst_append_sep rest (colon_not_mem_of_validScheme hs)]
  dsimp only
  rw [if_pos hs, hlow]

theorem schemeSplit_append_ext (u ext : List Char)
    (hext : ext.head? = some '#' ∨ ext.head? = some '?') :
    schemeSplit (u ++ ext) = ((schemeSplit u).1, (schemeSplit u).2 ++ ext) := by
  rw [schemeSplit, schemeSplit]
  cases hb : breakOnFirst ':' u with
  | some p =>
    obtain ⟨hl, hm⟩ := breakOnFirst_eq_some
      (by rw [hb] : breakOnFirst ':' u = some (p.1, p.2))
    have hba : breakOnFirst ':' (u ++ ext) = some (p.1, p.2 ++ ext) := by
      rw [hl, List.append_assoc, List.cons_append]
      exact breakOnFirst_append_sep _ hm
    rw [hba]
    dsimp only
    by_cases hv : validScheme p.1 = true
    · rw [if_pos hv, if_pos hv]
    · rw [if_neg hv, if_neg hv]
  | none =>
    have hnm : ':' ∉ u := breakOnFirst_eq_none.mp hb
    rw [breakOnFirst_append_of_not_mem ext hnm]
    cases hbe : breakOnFirst ':' ext with
    | none => rfl
    | some q =>
      simp only [Option.map_some']
      have hq : ¬ validScheme (u ++ q.1) = true := by
        obtain ⟨hle, -⟩ := breakOnFirst_eq_some
          (by rw [hbe] : breakOnFirst ':' ext = some (q.1, q.2))
        intro hval
        rcases hext with hh | hh <;>
        · rw [hle] at hh
          cases hq1 : q.1 with
          | nil =>
            rw [hq1] at hle hh
            simp at hh
          | cons c t =>
            rw [hq1] at hh
            simp at hh
            have := validScheme_all hval c
              (List.mem_append_right u (by rw [hq1]; exact List.mem_cons_self c t))
            rw [hh] at this
            rw [schemeChar_iff] at this
            simp at this
      rw [if_neg hq]

theorem netlocSplit_fst_all (r : List Char) :
    ∀ c ∈ (netlocSplit r).1, netlocChar c = true := by
  rw [netlocSplit]
  split
  · intro c hc
    exact List.mem_takeWhile_imp hc
  · intro c hc
    simp at hc

theorem netlocSplit_snd_subset {r : List Char} {x : Char}
    (h : x ∈ (netlocSplit r).2) : x ∈ r := by
  rw [netlocSplit] at h
  split at h
  · exact List.drop_subset 2 r ((List.dropWhile_sublist netlocChar).subset h)
  · exact h

theorem netlocSplit_snd_shape (r : List Char) :
    (netlocSplit r).1 = [] ∨ (netlocSplit r).2 = [] ∨
      ∃ c, (netlocSplit r).2.head? = some c ∧ netlocChar c = false := by
  rw [netlocSplit]
  split
  · right
    cases hd : ((r.drop 2).dropWhile netlocChar).head? with
    | none => exact Or.inl (List.head?_eq_none_iff.mp hd)
    | some c =>
      refine Or.inr ⟨c, rfl, ?_⟩
      have hw := List.head?_dropWhile_not netlocChar (r.drop 2)
      rw [hd] at hw
      exact hw
  · exact Or.inl rfl

theorem netlocSplit_of_netloc (n pa : List Char)
    (hn : ∀ c ∈ n, netlocChar c = true)
    (hpa : pa = [] ∨ pa.head? = some '/') :
    netlocSplit ('/' :: '/' :: (n ++ pa)) = (n, pa) := by
  have htw : pa.takeWhile netlocChar = [] ∧ pa.dropWhile netlocChar = pa := by
    rcases hpa with rfl | hh
    · exact ⟨rfl, rfl⟩
    · obtain ⟨t, rfl⟩ := List.head?_eq_some_iff.mp hh
      constructor
      · rw [List.takeWhile_cons]
        simp [netlocChar]
      · rw [List.dropWhile_cons]
        simp [netlocChar]
  rw [netlocSplit]
  simp only [List.take_succ_cons, List.take_zero, List.drop_succ_cons,
    List.drop_zero, if_pos rfl]
  rw [takeWhile_append_all pa hn, dropWhile_append_all pa hn, htw.1, htw.2,
    List.append_nil]
  simp

theorem netlocSplit_append_ext (r ext : List Char)
    (hext : ext.head? = some '#' ∨ ext.head? = some '?') :
    netlocSplit (r ++ ext) = ((netlocSplit r).1, (netlocSplit r).2 ++ ext) := by
  obtain ⟨x, hx, hpx⟩ : ∃ x, ext.head? = some x ∧ netlocChar x = false := by
    rcases hext with h | h
    · exact ⟨'#', h, by rfl⟩
    · exact ⟨'?', h, by rfl⟩
  obtain ⟨ext', rfl⟩ := List.head?_eq_some_iff.mp hx
  have hx2 : x = '#' ∨ x = '?' := by
    rcases hext with h | h <;>
      simp only [List.head?_cons, Option.some.injEq] at h
    · exact Or.inl h
    · exact Or.inr h
  rw [netlocSplit, netlocSplit]
  by_cases h2 : r.take 2 = ['/', '/']
  · obtain ⟨r', rfl⟩ : ∃ r', r = '/' :: '/' :: r' := by
      cases r with
      | nil => simp at h2
      | cons a s =>
        cases s with
        | nil => simp at h2
        | cons b t =>
          simp only [List.take_succ_cons, List.take_zero] at h2
          simp only [List.cons.injEq, and_true] at h2
          obtain ⟨rfl, rfl, -⟩ := h2
          exact ⟨t, rfl⟩
    simp only [List.cons_append, List.take_succ_cons, List.take_zero,
      List.drop_succ_cons, List.drop_zero, if_pos rfl]
    rw [takeWhile_append_stop (by rfl) hpx, dropWhile_append_stop (by rfl) hpx]
    simp
  · have h2' : ¬ (r ++ x :: ext').take 2 = ['/', '/'] := by
      intro hc
      cases r with
      | nil =>
        simp only [List.nil_append, List.take_succ_cons, List.cons.injEq] at hc
        rcases hx2 with rfl | rfl <;> simp at hc
      | cons a s =>
        cases s with
        | nil =>
          simp only [List.cons_append, List.nil_append, List.take_succ_cons,
            List.cons.injEq] at hc
          rcases hx2 with rfl | rfl <;> simp at hc
        | cons b t =>
          apply h2
          simp only [List.cons_append, List.take_succ_cons, List.take_zero,
            List.cons.injEq] at hc ⊢
          obtain ⟨rfl, rfl, -⟩ := hc
          exact ⟨rfl, rfl, trivial⟩
    rw [if_neg h2, if_neg h2']

theorem urlparseL_append_ext (u ext : List Char) (h1 : '#' ∉ u)
    (h2 : '?' ∉ u) (hext : ext.head? = some '#' ∨ ext.head? = some '?') :
    (urlparseL (u ++ ext)).map (fun r => (r.1, r.2.1, r.2.2.1)) =
      (urlparseL u).map (fun r => (r.1, r.2.1, r.2.2.1)) := by
  have hn1 : '#' ∉ (netlocSplit (schemeSplit u).2).2 :=
    fun hm => h1 (schemeSplit_snd_subset (netlocSplit_snd_subset hm))
  have hn2 : '?' ∉ (netlocSplit (schemeSplit u).2).2 :=
    fun hm => h2 (schemeSplit_snd_subset (netlocSplit_snd_subset hm))
  simp only [urlparseL]
  rw [schemeSplit_append_ext u ext hext]
  dsimp only
  rw [netlocSplit_append_ext _ ext hext]
  dsimp only
  by_cases hbr : ('[' ∈ (netlocSplit (schemeSplit u).2).1) ≠
      (']' ∈ (netlocSplit (schemeSplit u).2).1)
  · rw [if_pos hbr, if_pos hbr]
  · rw [if_neg hbr, if_neg hbr]
    simp only [Option.map_some']
    rcases hext with hh | hh
    · obtain ⟨f, rfl⟩ := List.head?_eq_some_iff.mp hh
      rw [splitFirst_append_sep f hn1, splitFirst_of_not_mem hn1]
    · obtain ⟨q, rfl⟩ := List.head?_eq_some_iff.mp hh
      rw [splitFirst_append_fst ('?' :: q) hn1,
        splitFirst_cons_ne q (by decide), splitFirst_of_not_mem hn1]
      dsimp only
      rw [splitFirst_append_sep _ hn2, splitFirst_of_not_mem hn2]

theorem urlparseL_clean (s n pa : List Char) (hs : validScheme s = true)
    (hlow : s.map Char.toLower = s) (hn : ∀ c ∈ n, netlocChar c = true)
    (hpa : pa = [] ∨ pa.head? = some '/')
    (hbr : ('[' ∈ n) ↔ (']' ∈ n)) (hpa1 : '#' ∉ pa) (hpa2 : '?' ∉ pa) :
    urlparseL (s ++ ':' :: '/' :: '/' :: (n ++ pa)) =
      some (s, n, pa, [], []) := by
  simp only [urlparseL]
  rw [schemeSplit_of_scheme s ('/' :: '/' :: (n ++ pa)) hs hlow]
  dsimp only
  rw [netlocSplit_of_netloc n pa hn hpa]
  dsimp only
  rw [if_neg (by simp [hbr])]
  rw [splitFirst_of_not_mem hpa1]
  dsimp only
  rw [splitFirst_of_not_mem hpa2]

theorem urlparseL_wf {l s n pa q f : List Char}
    (h : urlparseL l = some (s, n, pa, q, f)) :
    (s ≠ [] → validScheme s = true ∧ s.map Char.toLower = s) ∧
    (∀ c ∈ n, netlocChar c = true) ∧ (('[' ∈ n) ↔ (']' ∈ n)) ∧
    '#' ∉ pa ∧ '?' ∉ pa ∧ (n = [] ∨ pa = [] ∨ pa.head? = some '/') := by
  simp only [urlparseL] at h
  by_cases hbr : ('[' ∈ (netlocSplit (schemeSplit l).2).1) ≠
      (']' ∈ (netlocSplit (schemeSplit l).2).1)
  · rw [if_pos hbr] at h
    simp at h
  · rw [if_neg hbr] at h
    simp only [Option.some.injEq, Prod.mk.injEq] at h
    obtain ⟨hc1, hc2, hc3, hc4, hc5⟩ := h
    subst hc1
    subst hc2
    subst hc3
    subst hc4
    subst hc5
    refine ⟨fun hne => schemeSplit_fst_wf l hne, netlocSplit_fst_all _,
      iff_of_eq (not_not.mp hbr), ?_, splitFirst_fst_not_mem '?' _, ?_⟩
    · intro hm
      exact splitFirst_fst_not_mem '#' _ (splitFirst_fst_subset hm)
    · rcases netlocSplit_snd_shape (schemeSplit l).2 with hnil | hempty |
        ⟨c, hhead, hfalse⟩
      · exact Or.inl hnil
      · right
        left
        rw [hempty]
        rfl
      · right
        rw [netlocChar_false_iff] at hfalse
        obtain ⟨t, hteq⟩ := List.head?_eq_some_iff.mp hhead
        rw [hteq]
        rcases hfalse with rfl | rfl | rfl
        · rcases splitFirst_fst_head '#' ('/' :: t) with hfe | hfh
          · rw [hfe]
            exact Or.inl rfl
          · rcases splitFirst_fst_head '?' (splitFirst '#' ('/' :: t)).1
              with hqe | hqh
            · exact Or.inl hqe
            · right
              rw [hqh, hfh]
              rfl
        · rcases splitFirst_fst_head '#' ('?' :: t) with hfe | hfh
          · rw [hfe]
            exact Or.inl rfl
          · left
            obtain ⟨t1, ht1⟩ := List.head?_eq_some_iff.mp
              (by rw [hfh]; rfl :
                (splitFirst '#' ('?' :: t)).1.head? = some '?')
            rw [ht1]
            simp [splitFirst, breakOnFirst]
        · left
          simp [splitFirst, breakOnFirst]

/-- String concatenation acts on the underlying character lists. -/
theorem strData_append (a b : String) : (a ++ b).data = a.data ++ b.data :=
  rfl

/-- `canonicalize` factors through the (scheme, netloc, path) core of the
list-level parser. -/
theorem canonicalize_eq (s : String) :
    canonicalize s =
      ((urlparseL s.data).map (fun r => (r.1, r.2.1, r.2.2.1))).map
        (fun r => (⟨r.1⟩ : String) ++ "://" ++ ⟨r.2.1⟩ ++ ⟨r.2.2⟩) := by
  rw [canonicalize, urlparse, Option.map_map, Option.map_map]
  cases urlparseL s.data with
  | none => rfl
  | some out => rfl

/-- Reparsing the `clean_url` of a successfully parsed URL with a scheme and
an authority recovers exactly its scheme, netloc and path. -/
theorem urlparse_clean {u : String} {p : UrlParts} (hu : urlparse u = some p)
    (hs : p.scheme ≠ "") (hn : p.netloc ≠ "") :
    urlparse p.clean = some ⟨p.scheme, p.netloc, p.path, "", ""⟩ := by
  rw [urlparse] at hu
  cases hL : urlparseL u.data with
  | none => rw [hL] at hu; simp at hu
  | some out =>
    rw [hL] at hu
    simp only [Option.map_some', Option.some.injEq] at hu
    obtain ⟨s, n, pa, q, f⟩ := out
    subst hu
    have wf := urlparseL_wf hL
    have hsne : s ≠ [] := by
      intro hh
      subst hh
      exact hs rfl
    have hnne : n ≠ [] := by
      intro hh
      subst hh
      exact hn rfl
    have hshape : pa = [] ∨ pa.head? = some '/' := by
      rcases wf.2.2.2.2.2 with hh | hh | hh
      · exact absurd hh hnne
      · exact Or.inl hh
      · exact Or.inr hh
    have hdata : (UrlParts.clean ⟨⟨s⟩, ⟨n⟩, ⟨pa⟩, ⟨q⟩, ⟨f⟩⟩).data =
        s ++ ':' :: '/' :: '/' :: (n ++ pa) := by
      show s ++ (':' :: '/' :: '/' :: []) ++ n ++ pa =
        s ++ ':' :: '/' :: '/' :: (n ++ pa)
      simp
    rw [urlparse, hdata,
      urlparseL_clean s n pa (wf.1 hsne).1 (wf.1 hsne).2 wf.2.1 hshape
        wf.2.2.1 wf.2.2.2.1 wf.2.2.2.2.1]
    rfl

/-- The authority of a `clean_url` is the netloc of the URL it was built
from, provided that URL has a scheme and an authority. -/
theorem authorityOf_clean {u : String} {p : UrlParts}
    (hu : urlparse u = some p) (hs : p.scheme ≠ "") (hn : p.netloc ≠ "") :
    authorityOf p.clean = some p.netloc := by
  rw [authorityOf, urlparse_clean hu hs hn]
  rfl

/-- C6: two URL strings that differ only by an appended fragment and/or
query suffix canonicalize to the identical value, and canonicalize is
idempotent on every URL that parses with a scheme and an authority:
`canonicalize u = some c` implies `canonicalize c = some c`. -/
theorem C6_canonicalize :
    (∀ u ext : String, '#' ∉ u.data → '?' ∉ u.data →
      (ext.data.head? = some '#' ∨ ext.data.head? = some '?') →
      canonicalize (u ++ ext) = canonicalize u) ∧
    (∀ (u : String) (p : UrlParts), urlparse u = some p → p.scheme ≠ "" →
      p.netloc ≠ "" →
      canonicalize u = some p.clean ∧ canonicalize p.clean = some p.clean) := by
  constructor
  · intro u ext h1 h2 hext
    rw [canonicalize_eq, canonicalize_eq, strData_append,
      urlparseL_append_ext u.data ext.data h1 h2 hext]
  · intro u p hu hs hn
    refine ⟨by rw [canonicalize, hu]; rfl, ?_⟩
    rw [canonicalize, urlparse_clean hu hs hn]
    rfl

/-- C6 witness: fragment/query invariance and idempotence at concrete
URLs. -/
theorem C6_canonicalize_witness :
    ('#' ∉ ("http://h/p" : String).data ∧ '?' ∉ ("http://h/p" : String).data ∧
      ("?q=1#f" : String).data.head? = some '?' ∧
      canonicalize ("http://h/p" ++ "?q=1#f") = canonicalize "http://h/p") ∧
    (urlparse "http://h/p?q=1" = some ⟨"http", "h", "/p", "q=1", ""⟩ ∧
      canonicalize "http://h/p?q=1" =
        some (UrlParts.clean ⟨"http", "h", "/p", "q=1", ""⟩) ∧
      canonicalize (UrlParts.clean ⟨"http", "h", "/p", "q=1", ""⟩) =
        some (UrlParts.clean ⟨"http", "h", "/p", "q=1", ""⟩)) := by
  have hp : urlparse "http://h/p?q=1" = some ⟨"http", "h", "/p", "q=1", ""⟩ :=
    by decide
  obtain ⟨hc1, hc2⟩ := C6_canonicalize.2 "http://h/p?q=1"
    ⟨"http", "h", "/p", "q=1", ""⟩ hp (by decide) (by decide)
  exact ⟨⟨by decide, by decide, by decide,
    C6_canonicalize.1 "http://h/p" "?q=1#f" (by decide) (by decide)
      (Or.inr (by decide))⟩, hp, hc1, hc2⟩

/-- C5 counterexample: `http://h/a.png?x=1` has a path ending in the
denylisted extension `.png`, yet `is_valid_url` accepts it — the code tests
the extension against the full URL string (line 54), which here ends in
`?x=1`. -/
theorem C5_counterexample :
    (urlparse "http://h/a.png?x=1").map UrlParts.path = some "/a.png" ∧
    strEndsWith (lowerStr "/a.png") ".png" = true ∧
    ".png" ∈ skip_extensions ∧
    is_valid_url "http://h" ∅ "http://h/a.png?x=1" = true := by decide

/-- C5 (amended): `is_valid_url` rejects every URL whose authority differs
from the base authority, rejects every URL that declares a scheme other than
http or https, rejects every URL whose FULL URL STRING (not its path)
lower-cased ends with a denylisted extension, and rejects URLs that fail to
parse, returning `False` without raising. -/
theorem C5_is_valid_url (base_url : String) (visited : Finset String)
    (url : String) :
    (∀ p, urlparse url = some p → p.netloc ≠ "" →
      (∀ bp, urlparse base_url = some bp → p.netloc ≠ bp.netloc) →
      is_valid_url base_url visited url = false) ∧
    (∀ p, urlparse url = some p → p.scheme ≠ "" →
      p.scheme ∉ ["http", "https"] →
      is_valid_url base_url visited url = false) ∧
    (∀ ext, ext ∈ skip_extensions → strEndsWith (lowerStr url) ext = true →
      is_valid_url base_url visited url = false) ∧
    (urlparse url = none → is_valid_url base_url visited url = false) := by
  refine ⟨?_, ?_, ?_, ?_⟩
  · intro p hp hnn hbp
    cases hb : urlparse base_url with
    | none => simp [is_valid_url, hp, hb]
    | some bp =>
      simp only [is_valid_url, hp, hb]
      rw [if_pos ⟨hnn, hbp bp hb⟩]
  · intro p hp hsn hmem
    cases hb : urlparse base_url with
    | none => simp [is_valid_url, hp, hb]
    | some bp =>
      simp only [is_valid_url, hp, hb]
      by_cases h1 : p.netloc ≠ "" ∧ p.netloc ≠ bp.netloc
      · rw [if_pos h1]
      · rw [if_neg h1, if_pos ⟨hsn, hmem⟩]
  · intro ext hin hend
    cases hu : urlparse url with
    | none => simp [is_valid_url, hu]
    | some p =>
      cases hb : urlparse base_url with
      | none => simp [is_valid_url, hu, hb]
      | some bp =>
        simp only [is_valid_url, hu, hb]
        by_cases h1 : p.netloc ≠ "" ∧ p.netloc ≠ bp.netloc
        · rw [if_pos h1]
        · rw [if_neg h1]
          by_cases h2 : p.scheme ≠ "" ∧ p.scheme ∉ ["http", "https"]
          · rw [if_pos h2]
          · rw [if_neg h2,
              if_pos (List.any_eq_true.mpr ⟨ext, hin, hend⟩)]
  · intro hu
    simp [is_valid_url, hu]

/-- C5 witness: the rejection clauses applied to a cross-origin URL, an
ftp URL, an upper-case `.PNG` URL and a malformed (unbalanced bracket)
URL. -/
theorem C5_is_valid_url_witness :
    is_valid_url "http://h" ∅ "https://other.test/x" = false ∧
    is_valid_url "http://h" ∅ "ftp://h/file" = false ∧
    is_valid_url "http://h" ∅ "http://h/x.PNG" = false ∧
    is_valid_url "http://h" ∅ "http://[::1/x" = false := by
  refine ⟨?_, ?_, ?_, ?_⟩
  · exact (C5_is_valid_url "http://h" ∅ "https://other.test/x").1
      ⟨"https", "other.test", "/x", "", ""⟩ (by decide) (by decide)
      (fun bp hb => by
        rw [show urlparse "http://h" = some ⟨"http", "h", "", "", ""⟩
          from by decide] at hb
        cases hb
        decide)
  · exact (C5_is_valid_url "http://h" ∅ "ftp://h/file").2.1
      ⟨"ftp", "h", "/file", "", ""⟩ (by decide) (by decide) (by decide)
  · exact (C5_is_valid_url "http://h" ∅ "http://h/x.PNG").2.2.1
      ".png" (by decide) (by decide)
  · exact (C5_is_valid_url "http://h" ∅ "http://[::1/x").2.2.2 (by decide)

/-- C3: the dedup invariant is violated by the code.  Crawling the seed
`http://h/p`, whose page carries the resource reference `http://h/p?q=1`
(enqueued raw by the `src` branch of `extract_links`, line 85, without
canonicalization), yields a visited set holding two distinct entries with
the identical canonical form `http://h/p`. -/
theorem C3_dedup_violation :
    ("http://h/p" : String) ≠ "http://h/p?q=1" ∧
    "http://h/p" ∈
      ((crawlStep envC3x ((crawlStep envC3x (initState envC3x)).state)).state).visited ∧
    "http://h/p?q=1" ∈
      ((crawlStep envC3x ((crawlStep envC3x (initState envC3x)).state)).state).visited ∧
    canonicalize "http://h/p" = canonicalize "http://h/p?q=1" := by decide

/-- Membership in the link set after one insertion. -/
theorem addLink_mem {links : List String} {l x : String}
    (h : x ∈ addLink links l) : x ∈ links ∨ x = l := by
  rw [addLink] at h
  split at h
  · exact Or.inl h
  · rcases List.mem_append.mp h with h | h
    · exact Or.inl h
    · exact Or.inr (List.mem_singleton.mp h)

/-- Every link produced by the `href` loop is carried over from the
accumulator or is the canonicalized form of a capture accepted by
`is_valid_url`. -/
theorem hrefLinks_mem {base : String} {visited : Finset String}
    {acc rs : List String} {x : String}
    (h : x ∈ hrefLinks base visited acc rs) :
    x ∈ acc ∨ ∃ r ∈ rs, ∃ p, urlparse r = some p ∧
      is_valid_url base visited r = true ∧ x = p.clean := by
  induction rs generalizing acc with
  | nil => exact Or.inl h
  | cons r rs ih =>
    rw [hrefLinks] at h
    rcases ih h with hacc | ⟨r', hr', hrest⟩
    · by_cases hv : is_valid_url base visited r = true
      · rw [if_pos hv] at hacc
        cases hp : urlparse r with
        | none => rw [hp] at hacc; exact Or.inl hacc
        | some p =>
          rw [hp] at hacc
          rcases addLink_mem hacc with h1 | h1
          · exact Or.inl h1
          · exact Or.inr ⟨r, List.mem_cons_self r rs, p, hp, hv, h1⟩
      · rw [if_neg hv] at hacc
        exact Or.inl hacc
    · exact Or.inr ⟨r', List.mem_cons_of_mem r hr', hrest⟩

/-- Every link produced by the `src` loop is carried over from the
accumulator or is a raw capture whose string extends the base URL. -/
theorem srcLinks_mem {base : String} {acc rs : List String} {x : String}
    (h : x ∈ srcLinks base acc rs) :
    x ∈ acc ∨ ∃ r ∈ rs, strStartsWith r base = true ∧ x = r := by
  induction rs generalizing acc with
  | nil => exact Or.inl h
  | cons r rs ih =>
    rw [srcLinks] at h
    rcases ih h with hacc | ⟨r', hr', hrest⟩
    · by_cases hv : strStartsWith r base = true
      · rw [if_pos hv] at hacc
        rcases addLink_mem hacc with h1 | h1
        · exact Or.inl h1
        · exact Or.inr ⟨r, List.mem_cons_self r rs, hv, h1⟩
      · rw [if_neg hv] at hacc
        exact Or.inl hacc
    · exact Or.inr ⟨r', List.mem_cons_of_mem r hr', hrest⟩

/-- Provenance of every extracted link: canonicalized `href` capture passing
the filter, or raw `src` capture extending the base URL. -/
theorem extract_links_mem {base : String} {visited : Finset String}
    {pg : Page} {x : String} (h : x ∈ extract_links base visited pg) :
    (∃ r ∈ pg.hrefs, ∃ p, urlparse r = some p ∧
      is_valid_url base visited r = true ∧ x = p.clean) ∨
    (∃ r ∈ pg.srcs, strStartsWith r base = true ∧ x = r) := by
  rw [extract_links] at h
  rcases srcLinks_mem h with hacc | hsrc
  · rcases hrefLinks_mem hacc with hnil | hh
    · simp at hnil
    · exact Or.inl hh
  · exact Or.inr hsrc

/-- An accepted URL parses, the base URL parses, and the URL's netloc is
empty or equals the base netloc. -/
theorem is_valid_url_true_elim {base : String} {visited : Finset String}
    {url : String} (h : is_valid_url base visited url = true) :
    ∃ p bp, urlparse url = some p ∧ urlparse base = some bp ∧
      (p.netloc = "" ∨ p.netloc = bp.netloc) := by
  cases hu : urlparse url with
  | none => simp [is_valid_url, hu] at h
  | some p =>
    cases hb : urlparse base with
    | none => simp [is_valid_url, hu, hb] at h
    | some bp =>
      refine ⟨p, bp, rfl, rfl, ?_⟩
      by_cases h1 : p.netloc = ""
      · exact Or.inl h1
      · right
        by_contra h2
        simp only [is_valid_url, hu, hb] at h
        rw [if_pos ⟨h1, h2⟩] at h
        simp at h

/-- A string starts with itself stripped of trailing slashes. -/
theorem strStartsWith_rstrip (s : String) :
    strStartsWith s (rstripSlash s) = true := by
  rw [strStartsWith, rstripSlash]
  rw [List.isPrefixOf_iff_prefix]
  have hsplit : s.data =
      (s.data.reverse.dropWhile (fun c => c = '/')).reverse ++
        (s.data.reverse.takeWhile (fun c => c = '/')).reverse := by
    rw [← List.reverse_append, List.takeWhile_append_dropWhile,
      List.reverse_reverse]
  exact ⟨_, hsplit.symm⟩

/-- The URL field written by `check_url` is the fetched URL. -/
theorem check_url_url (url : String) (o : NetOutcome) :
    (check_url url o).url = url := by
  cases o <;> rfl

/-- C7 counterexample: the seed `http://a.b` carries the resource reference
`http://a.bc/x`, whose authority `a.bc` differs from the seed's authority
`a.b`; yet the `src` branch's string-prefix test (line 84) accepts it, so it
is added to the frontier after the first iteration. -/
theorem C7_counterexample :
    "http://a.bc/x" ∈ ((crawlStep envC7x (initState envC7x)).state).to_visit ∧
    authorityOf "http://a.bc/x" = some "a.bc" ∧
    authorityOf envC7x.seed = some "a.b" ∧
    authorityOf "http://a.bc/x" ≠ authorityOf envC7x.seed := by decide

/-- C7 (amended): assuming every `href` capture resolves to an absolute URL
(non-empty scheme and authority, as `urljoin` against an http(s) page
guarantees), every URL whose authority differs from the base URL's authority
AND whose string does not extend the base URL as a prefix is never added to
the frontier, never visited, and never appears in the valid or broken result
lists, at every reachable iteration boundary.  (The prefix proviso is
required: `src` captures are admitted by a string-prefix test, line 84, not
by an authority comparison.) -/
theorem C7_same_origin (e : Env)
    (habs : ∀ url pg, e.fetch2 url = .ok pg → ∀ r ∈ pg.hrefs, ∀ p,
      urlparse r = some p → p.scheme ≠ "" ∧ p.netloc ≠ "")
    (st : CrawlState) (hr : Reaches e (initState e) st) (u : String)
    (h1 : strStartsWith u e.base = false)
    (h2 : authorityOf u ≠ authorityOf e.base) :
    u ∉ st.to_visit ∧ u ∉ st.visited ∧
    (∀ rec ∈ st.valid_links, rec.url ≠ u) ∧
    (∀ rec ∈ st.broken_links, rec.1.url ≠ u) := by
  have hstep : ∀ s s', crawlStep e s = .next s' →
      ((∀ v ∈ s.to_visit, strStartsWith v e.base = true ∨
          authorityOf v = authorityOf e.base) ∧
        (∀ v ∈ s.visited, strStartsWith v e.base = true ∨
          authorityOf v = authorityOf e.base) ∧
        (∀ rec ∈ s.valid_links, strStartsWith rec.url e.base = true ∨
          authorityOf rec.url = authorityOf e.base) ∧
        (∀ rec ∈ s.broken_links, strStartsWith rec.1.url e.base = true ∨
          authorityOf rec.1.url = authorityOf e.base)) →
      ((∀ v ∈ s'.to_visit, strStartsWith v e.base = true ∨
          authorityOf v = authorityOf e.base) ∧
        (∀ v ∈ s'.visited, strStartsWith v e.base = true ∨
          authorityOf v = authorityOf e.base) ∧
        (∀ rec ∈ s'.valid_links, strStartsWith rec.url e.base = true ∨
          authorityOf rec.url = authorityOf e.base) ∧
        (∀ rec ∈ s'.broken_links, strStartsWith rec.1.url e.base = true ∨
          authorityOf rec.1.url = authorityOf e.base)) := by
    intro s s' hs hP
    obtain ⟨Ptv, Pvis, Pval, Pbro⟩ := hP
    rcases crawlStep_shape e s with ⟨hd, -⟩
      | ⟨cur, rest, htv, -, -, hss⟩
      | ⟨cur, rest, m, -, -, -, -, hss⟩
      | ⟨cur, rest, issue, htv, -, hnm, -, hss⟩
      | ⟨cur, rest, newLinks, htv, -, hnm, -, hnl, hss⟩
    · rw [hd] at hs; cases hs
    · rw [hss] at hs
      cases hs
      exact ⟨fun v hv => Ptv v (htv ▸ List.mem_cons_of_mem cur hv),
        Pvis, Pval, Pbro⟩
    · rw [hss] at hs; cases hs
    · rw [hss] at hs
      cases hs
      have hGcur := Ptv cur (htv ▸ List.mem_cons_self cur rest)
      refine ⟨fun v hv => Ptv v (htv ▸ List.mem_cons_of_mem cur hv), ?_,
        Pval, ?_⟩
      · intro v hv
        rcases Finset.mem_insert.mp hv with rfl | hv
        · exact hGcur
        · exact Pvis v hv
      · intro rec hrec
        rcases List.mem_append.mp hrec with hrec | hrec
        · exact Pbro rec hrec
        · rw [List.mem_singleton.mp hrec]
          rw [check_url_url]
          exact hGcur
    · rw [hss] at hs
      cases hs
      have hGcur := Ptv cur (htv ▸ List.mem_cons_self cur rest)
      refine ⟨?_, ?_, ?_, Pbro⟩
      · intro v hv
        rcases List.mem_append.mp hv with hv | hv
        · exact Ptv v (htv ▸ List.mem_cons_of_mem cur hv)
        · rcases hnl with rfl | ⟨pg, hpg, rfl⟩
          · simp at hv
          · have hvex := List.mem_filter.mp hv
            rcases extract_links_mem hvex.1 with
              ⟨r, hrmem, p, hp, hvalid, rfl⟩ | ⟨r, hrmem, hpre, rfl⟩
            · obtain ⟨hps, hpn⟩ := habs cur pg hpg r hrmem p hp
              obtain ⟨p', bp, hp', hb, hdisj⟩ := is_valid_url_true_elim hvalid
              rw [hp] at hp'
              cases hp'
              right
              rw [authorityOf_clean hp hps hpn]
              rcases hdisj with hzero | heq
              · exact absurd hzero hpn
              · rw [heq, authorityOf, hb]
                rfl
            · exact Or.inl hpre
      · intro v hv
        rcases Finset.mem_insert.mp hv with rfl | hv
        · exact hGcur
        · exact Pvis v hv
      · intro rec hrec
        rcases List.mem_append.mp hrec with hrec | hrec
        · exact Pval rec hrec
        · rw [List.mem_singleton.mp hrec]
          rw [check_url_url]
          exact hGcur
  have hinit : (∀ v ∈ (initState e).to_visit,
      strStartsWith v e.base = true ∨
        authorityOf v = authorityOf e.base) ∧
      (∀ v ∈ (initState e).visited, strStartsWith v e.base = true ∨
        authorityOf v = authorityOf e.base) ∧
      (∀ rec ∈ (initState e).valid_links,
        strStartsWith rec.url e.base = true ∨
          authorityOf rec.url = authorityOf e.base) ∧
      (∀ rec ∈ (initState e).broken_links,
        strStartsWith rec.1.url e.base = true ∨
          authorityOf rec.1.url = authorityOf e.base) := by
    refine ⟨?_, by simp [initState], by simp [initState], by simp [initState]⟩
    intro v hv
    rw [show v = e.seed from List.mem_singleton.mp hv]
    exact Or.inl (strStartsWith_rstrip e.seed)
  obtain ⟨htv, hvis, hval, hbro⟩ := reaches_invariant hstep hr hinit
  have hnG : ∀ v, (strStartsWith v e.base = true ∨
      authorityOf v = authorityOf e.base) → v ≠ u := by
    rintro v hg rfl
    rcases hg with hg | hg
    · rw [h1] at hg; cases hg
    · exact h2 hg
  refine ⟨fun hm => hnG u (htv u hm) rfl, fun hm => hnG u (hvis u hm) rfl,
    fun rec hm => hnG rec.url (hval rec hm),
    fun rec hm => hnG rec.1.url (hbro rec hm)⟩

/-- C7 witness: the scope theorem applied to a concrete one-page crawl,
showing `https://other.test/x` is absent from the initial boundary. -/
theorem C7_same_origin_witness :
    strStartsWith "https://other.test/x" envC7w.base = false ∧
    authorityOf "https://other.test/x" ≠ authorityOf envC7w.base ∧
    "https://other.test/x" ∉ (initState envC7w).to_visit ∧
    "https://other.test/x" ∉ (initState envC7w).visited := by
  have habs : ∀ url pg, envC7w.fetch2 url = .ok pg → ∀ r ∈ pg.hrefs, ∀ p,
      urlparse r = some p → p.scheme ≠ "" ∧ p.netloc ≠ "" := by
    intro url pg hok r hrmem p hp
    revert hok
    simp only [envC7w]
    split
    · intro hok
      cases hok
      rw [show r = "http://h/a" from List.mem_singleton.mp hrmem] at hp
      rw [show urlparse "http://h/a" = some ⟨"http", "h", "/a", "", ""⟩
        from by decide] at hp
      cases hp
      exact ⟨by decide, by decide⟩
    · intro hok
      cases hok
      simp at hrmem
  have h := C7_same_origin envC7w habs (initState envC7w) (Reaches.refl _)
    "https://other.test/x" (by decide) (by decide)
  exact ⟨by decide, by decide, h.1, h.2.1⟩

end LinkChecker
